import Mathlib

/-!
Verification of a slice of the Qt toolkit: the polling file-system
watcher (`qfilesystemwatcher_polling.cpp`), the Android assets file
engine and its folder-iterator cache
(`qandroidassetsfileenginehandler.cpp`) and the SCNetworkReachability
network-information backend factory.

The C++ code is shallowly embedded: `QString` keys are Lean `String`s
(asset-path normalisation is carried out on `List Char`), `QHash` maps
are association lists, and the filesystem is an explicit function from
paths to optional stat results.
-/

namespace QtPolling

/-- Attribute snapshot stored per watched path.  Modelled from the spec:
the private `FileInfo` record of the polling watcher header (not among
the sources here) captures owner, group, permissions, last-modified
time and, for directories, the entry list; the watcher only ever
compares two snapshots for equality. -/
structure FileInfo where
  ownerId : Nat
  groupId : Nat
  permissions : Nat
  lastModified : Nat
  entries : List String
deriving DecidableEq, Repr, Inhabited

/-- Result of statting a path: whether it is a directory, plus the
attribute snapshot. -/
structure FSEntry where
  isDir : Bool
  info : FileInfo
deriving DecidableEq, Repr

/-- A filesystem state: each path either does not exist (`none`) or
stats to an `FSEntry`. -/
abbrev FS := String → Option FSEntry

/-- Key actually statted for a watched directory: the path itself when
it already ends in a slash, otherwise the path with `'/'` appended
(`if (!path.endsWith(u'/')) fi = QFileInfo(path + u'/')`). -/
def dirKey (p : String) : String :=
  if p.endsWith "/" then p else p ++ "/"

/-- The file half of `QPollingFileSystemWatcherEngine::timeout`,
embedded directly from the erase-as-you-iterate loop: returns the new
`files` map together with the list of `fileChanged(path, removed)`
emissions in iteration order. -/
def timeoutFiles (fs : FS) :
    List (String × FileInfo) → List (String × FileInfo) × List (String × Bool)
  | [] => ([], [])
  | (path, stored) :: rest =>
    let r := timeoutFiles fs rest
    match fs path with
    | none => (r.1, (path, true) :: r.2)
    | some e =>
      if stored ≠ e.info then ((path, e.info) :: r.1, (path, false) :: r.2)
      else ((path, stored) :: r.1, r.2)

/-- The directory half of `QPollingFileSystemWatcherEngine::timeout`.
`fs` is the filesystem at the first stat, `fs2` at the `fi.refresh()`
recheck performed before choosing between removal and update. -/
def timeoutDirs (fs fs2 : FS) :
    List (String × FileInfo) → List (String × FileInfo) × List (String × Bool)
  | [] => ([], [])
  | (path, stored) :: rest =>
    let r := timeoutDirs fs fs2 rest
    match fs (dirKey path) with
    | none => (r.1, (path, true) :: r.2)
    | some e =>
      if stored ≠ e.info then
        match fs2 (dirKey path) with
        | none => (r.1, (path, true) :: r.2)
        | some e2 => ((path, e2.info) :: r.1, (path, false) :: r.2)
      else ((path, stored) :: r.1, r.2)

/-- `QPollingFileSystemWatcherEngine::timeout`: both loops; result is
(new files map, new directories map, fileChanged emissions,
directoryChanged emissions). -/
def timeout (fs fs2 : FS) (files dirs : List (String × FileInfo)) :
    List (String × FileInfo) × List (String × FileInfo) ×
      List (String × Bool) × List (String × Bool) :=
  let tf := timeoutFiles fs files
  let td := timeoutDirs fs fs2 dirs
  (tf.1, td.1, tf.2, td.2)

/-- Per-path diff rule for a watched file, stated as the specification
words it: gone ↦ drop the entry, changed ↦ keep with the fresh
snapshot, unchanged ↦ keep as is. -/
def fileDiffKeep (fs : FS) (e : String × FileInfo) : Option (String × FileInfo) :=
  match fs e.1 with
  | none => none
  | some x => if e.2 ≠ x.info then some (e.1, x.info) else some e

/-- Per-path emission rule for a watched file: gone ↦
`fileChanged(path, true)`, changed ↦ `fileChanged(path, false)`,
unchanged ↦ no signal. -/
def fileDiffEvent (fs : FS) (e : String × FileInfo) : Option (String × Bool) :=
  match fs e.1 with
  | none => some (e.1, true)
  | some x => if e.2 ≠ x.info then some (e.1, false) else none

/-- Per-path diff rule for a watched directory, including the
refresh-and-recheck through `fs2` before deciding between removal and
update. -/
def dirDiffKeep (fs fs2 : FS) (e : String × FileInfo) : Option (String × FileInfo) :=
  match fs (dirKey e.1) with
  | none => none
  | some x =>
    if e.2 ≠ x.info then
      match fs2 (dirKey e.1) with
      | none => none
      | some y => some (e.1, y.info)
    else some e

/-- Per-path emission rule for a watched directory. -/
def dirDiffEvent (fs fs2 : FS) (e : String × FileInfo) : Option (String × Bool) :=
  match fs (dirKey e.1) with
  | none => some (e.1, true)
  | some x =>
    if e.2 ≠ x.info then
      match fs2 (dirKey e.1) with
      | none => some (e.1, true)
      | some _ => some (e.1, false)
    else none

/-- `QStringList::contains` / `QHash` lookup by key, written as a plain
recursion so that proofs can unfold it. -/
def lookupKey : List (String × FileInfo) → String → Option FileInfo
  | [], _ => none
  | e :: rest, k => if e.1 = k then some e.2 else lookupKey rest k

/-- `QHash::remove`: drop every entry with the given key. -/
def eraseKey : List (String × FileInfo) → String → List (String × FileInfo)
  | [], _ => []
  | e :: rest, k => if e.1 = k then eraseKey rest k else e :: eraseKey rest k

/-- `QHash::insert`: a hash has at most one entry per key, so inserting
replaces any existing entry; the model erases the key and appends. -/
def hashInsert (m : List (String × FileInfo)) (k : String) (v : FileInfo) : List (String × FileInfo) :=
  eraseKey m k ++ [(k, v)]

/-- Attributes captured by constructing a `QFileInfo` for `p`: the stat
result when the path exists, default-initialised attributes otherwise. -/
def statSnap (fs : FS) (p : String) : FileInfo :=
  ((fs p).map FSEntry.info).getD default

/-- The two caller-owned `QStringList`s that `QFileSystemWatcher` passes
into `addPaths` / `removePaths`. -/
structure WatchLists where
  files : List String
  directories : List String
deriving DecidableEq, Repr

/-- The engine's two snapshot maps (`this->files`, `this->directories`). -/
structure EngineMaps where
  files : List (String × FileInfo)
  directories : List (String × FileInfo)
deriving DecidableEq, Repr

/-- Result of the path loop inside `addPaths` / `removePaths`. -/
structure LoopResult where
  unhandled : List String
  lists : WatchLists
  eng : EngineMaps
deriving DecidableEq, Repr

/-- The loop of `QPollingFileSystemWatcherEngine::addPaths`: a scope
guard pushes the path onto `unhandled` unless the iteration reaches the
dismiss at the bottom; an existing directory not yet in the caller's
list is appended there and snapshotted under its trailing-slash key,
an existing non-directory not yet in the caller's file list likewise
into the file map. -/
def addPathsLoop (fs : FS) : List String → WatchLists → EngineMaps → LoopResult
  | [], L, E => ⟨[], L, E⟩
  | p :: rest, L, E =>
    match fs p with
    | none =>
      let r := addPathsLoop fs rest L E
      ⟨p :: r.unhandled, r.lists, r.eng⟩
    | some e =>
      if e.isDir then
        if p ∈ L.directories then
          let r := addPathsLoop fs rest L E
          ⟨p :: r.unhandled, r.lists, r.eng⟩
        else
          addPathsLoop fs rest ⟨L.files, L.directories ++ [p]⟩
            ⟨E.files, hashInsert E.directories p (statSnap fs (dirKey p))⟩
      else
        if p ∈ L.files then
          let r := addPathsLoop fs rest L E
          ⟨p :: r.unhandled, r.lists, r.eng⟩
        else
          addPathsLoop fs rest ⟨L.files ++ [p], L.directories⟩
            ⟨hashInsert E.files p e.info, E.directories⟩

/-- `QPollingFileSystemWatcherEngine::addPaths` including the timer
update: the timer is started when some map is non-empty and it was not
already running. -/
def addPaths (fs : FS) (paths : List String) (L : WatchLists) (E : EngineMaps)
    (timerActive : Bool) : LoopResult × Bool :=
  let r := addPathsLoop fs paths L E
  (r, if (r.eng.files ≠ [] ∨ r.eng.directories ≠ []) ∧ ¬timerActive then true else timerActive)

/-- The loop of `QPollingFileSystemWatcherEngine::removePaths`: the
directory map is tried first, the file map only when the path was not a
watched directory; a hit removes the key from the engine map and every
occurrence from the caller's matching list. -/
def removePathsLoop : List String → WatchLists → EngineMaps → LoopResult
  | [], L, E => ⟨[], L, E⟩
  | p :: rest, L, E =>
    if (lookupKey E.directories p).isSome then
      removePathsLoop rest ⟨L.files, L.directories.filter (fun q => q ≠ p)⟩
        ⟨E.files, eraseKey E.directories p⟩
    else if (lookupKey E.files p).isSome then
      removePathsLoop rest ⟨L.files.filter (fun q => q ≠ p), L.directories⟩
        ⟨eraseKey E.files p, E.directories⟩
    else
      let r := removePathsLoop rest L E
      ⟨p :: r.unhandled, r.lists, r.eng⟩

/-- `QPollingFileSystemWatcherEngine::removePaths` including the timer
update: the timer is stopped when both maps became empty. -/
def removePaths (paths : List String) (L : WatchLists) (E : EngineMaps)
    (timerActive : Bool) : LoopResult × Bool :=
  let r := removePathsLoop paths L E
  (r, if r.eng.files = [] ∧ r.eng.directories = [] then false else timerActive)

/-- Decides, from the state at call entry, whether `addPaths` reports a
path as unhandled: it does not exist, or it is already in the caller's
list matching its kind. -/
def unhandledP (fs : FS) (L : WatchLists) (p : String) : Bool :=
  match fs p with
  | none => true
  | some e => if e.isDir then decide (p ∈ L.directories) else decide (p ∈ L.files)

/-- Decides whether `addPaths` appends the path to the caller's
directory list. -/
def addedDirP (fs : FS) (L : WatchLists) (p : String) : Bool :=
  match fs p with
  | some e => e.isDir && !decide (p ∈ L.directories)
  | none => false

/-- Decides whether `addPaths` appends the path to the caller's file
list. -/
def addedFileP (fs : FS) (L : WatchLists) (p : String) : Bool :=
  match fs p with
  | some e => !e.isDir && !decide (p ∈ L.files)
  | none => false

/-- One externally triggered call on the engine: `QFileSystemWatcher`
hands the engine a path list together with its two bookkeeping lists. -/
inductive WatchOp where
  | add (fs : FS) (paths : List String) (L : WatchLists)
  | remove (paths : List String) (L : WatchLists)

/-- Applies one call to the engine state (snapshot maps plus timer). -/
def applyOp (s : EngineMaps × Bool) : WatchOp → EngineMaps × Bool
  | .add fs paths L =>
    let r := addPaths fs paths L s.1 s.2
    (r.1.eng, r.2)
  | .remove paths L =>
    let r := removePaths paths L s.1 s.2
    (r.1.eng, r.2)

/-- The engine state after a sequence of calls, starting from the
freshly constructed engine: empty maps, timer not running. -/
def runOps (ops : List WatchOp) : EngineMaps × Bool :=
  ops.foldl applyOp (⟨[], []⟩, false)

/-- A small concrete filesystem used to instantiate the theorems:
`f` and `g` are regular files, `d` (and its slashed alias) a
directory, everything else does not exist. -/
def sampleFS : FS := fun p =>
  if p = "f" then some ⟨false, ⟨1, 1, 6, 10, []⟩⟩
  else if p = "g" then some ⟨false, ⟨1, 1, 6, 11, []⟩⟩
  else if p = "d" then some ⟨true, ⟨1, 1, 7, 12, ["f"]⟩⟩
  else if p = "d/" then some ⟨true, ⟨1, 1, 7, 12, ["f"]⟩⟩
  else none

end QtPolling

namespace QtAndroidAssets

/-- One replacement pass of `QString::replace("//", "/")` as Qt performs
it: occurrences are located left to right in the original text,
non-overlapping, and the inserted replacement is not rescanned. -/
def replaceDS : List Char → List Char
  | [] => []
  | [c] => [c]
  | c :: d :: rest =>
    if c = '/' ∧ d = '/' then '/' :: replaceDS rest
    else c :: replaceDS (d :: rest)

/-- Whether the string starts with `'/'`. -/
def startsSlash : List Char → Bool
  | [] => false
  | c :: _ => c = '/'

/-- Whether the string ends with `'/'`. -/
def endsSlash : List Char → Bool
  | [] => false
  | [c] => c = '/'
  | _ :: d :: rest => endsSlash (d :: rest)

/-- Whether the string contains two consecutive slashes. -/
def hasDoubleSlash : List Char → Bool
  | [] => false
  | [_] => false
  | c :: d :: rest => (c = '/' && d = '/') || hasDoubleSlash (d :: rest)

/-- Whether the string contains three consecutive slashes. -/
def hasTripleSlash : List Char → Bool
  | [] => false
  | [_] => false
  | [_, _] => false
  | c :: d :: e :: rest => (c = '/' && d = '/' && e = '/') || hasTripleSlash (d :: e :: rest)

/-- `if (file.startsWith(QLatin1Char('/'))) file.remove(0, 1)`. -/
def dropLeadSlash (l : List Char) : List Char :=
  if startsSlash l then l.tail else l

/-- `if (file.endsWith(QLatin1Char('/'))) file.chop(1)`. -/
def chopTrailSlash (l : List Char) : List Char :=
  if endsSlash l then l.dropLast else l

/-- `file.startsWith(assetsPrefix)` followed by `file.remove(0,
prefixSize)`: strips a leading `assets:` when present. -/
def stripAssets (l : List Char) : Option (List Char) :=
  if l.take 7 = ['a', 's', 's', 'e', 't', 's', ':'] then some (l.drop 7) else none

/-- The slash normalisation shared by `cleanedAssetPath` and
`AndroidAssetsFileEngineHandler::create`: one `"//" → "/"` replacement
pass, then at most one leading and one trailing slash removed. -/
def cleanPost (l : List Char) : List Char :=
  chopTrailSlash (dropLeadSlash (replaceDS l))

/-- `cleanedAssetPath` from `qandroidassetsfileenginehandler.cpp`. -/
def cleanedAssetPath (file : List Char) : List Char :=
  match stripAssets file with
  | some rest => cleanPost rest
  | none => cleanPost file

/-- `AndroidAssetsFileEngineHandler::create`: empty names and names
without the `assets:` prefix are rejected, everything else is
normalised and handed to the engine constructor. -/
def handlerCreate (fileName : List Char) : Option (List Char) :=
  if fileName = [] then none
  else
    match stripAssets fileName with
    | none => none
    | some path => some (cleanPost path)

/-- The `m_fileName` the constructed engine ends up with:
`AndroidAbstractFileEngine::setFileName` applies `cleanedAssetPath`
once more to the path produced by `create`. -/
def engineFileName (fileName : List Char) : Option (List Char) :=
  (handlerCreate fileName).map cleanedAssetPath

/-- Lookup in the folder-iterator cache, keys most recently used
first. -/
def cachePairs : Type := List (String × Nat)

/-- Plain association-list lookup used by the cache model. -/
def pairLookup : List (String × Nat) → String → Option Nat
  | [], _ => none
  | e :: rest, k => if e.1 = k then some e.2 else pairLookup rest k

/-- Drop every pair with the given key. -/
def pairErase : List (String × Nat) → String → List (String × Nat)
  | [], _ => []
  | e :: rest, k => if e.1 = k then pairErase rest k else e :: pairErase rest k

/-- The static `QCache<QString, QSharedPointer<FolderIterator>>`:
`maxCost` is the capacity, `entries` keeps the most recently used pair
first; every entry has cost 1.  Iterator objects are identified by a
numeric id standing for the shared pointer. -/
structure AssetCache where
  maxCost : Nat
  entries : List (String × Nat)
deriving DecidableEq, Repr

/-- `QCache::object`: a hit also marks the entry most recently used. -/
def cacheObject (c : AssetCache) (k : String) : Option Nat × AssetCache :=
  match pairLookup c.entries k with
  | none => (none, c)
  | some v => (some v, ⟨c.maxCost, (k, v) :: pairErase c.entries k⟩)

/-- `QCache::insert` with cost 1: fails (deleting the object) when the
cost exceeds the capacity, otherwise evicts least recently used entries
until the new total cost fits and inserts the pair in front. -/
def cacheInsert (c : AssetCache) (k : String) (v : Nat) : Bool × AssetCache :=
  if c.maxCost < 1 then (false, c)
  else (true, ⟨c.maxCost, (k, v) :: (pairErase c.entries k).take (c.maxCost - 1)⟩)

/-- The capacity of `FolderIterator::m_assetsCache`:
`std::max(50, qEnvironmentVariableIntValue("QT_ANDROID_MAX_ASSETS_CACHE_SIZE"))`. -/
def assetsCacheCapacity (env : Int) : Nat :=
  (max 50 env).toNat

/-- `FolderIterator::fromCache`: a hit returns the cached shared
iterator; a miss constructs a fresh one (`fresh` stands for the newly
allocated shared pointer), attempts to insert it, and returns it
whether or not the insertion succeeded. -/
def fromCache (c : AssetCache) (fresh : Nat) (path : String) : Nat × AssetCache :=
  match cacheObject c path with
  | (some v, c1) => (v, c1)
  | (none, c1) =>
    let r := cacheInsert c1 path fresh
    (fresh, if r.1 then r.2 else c1)

/-- Kind of a listed asset, from the trailing slash of the raw JNI
name. -/
inductive AssetType where
  | file
  | folder
deriving DecidableEq, Repr

/-- An entry of a `FolderIterator`: the `AssetItem` record. -/
structure AssetItem where
  itemType : AssetType
  name : String
deriving DecidableEq, Repr

/-- The `AssetItem` constructor: a trailing slash marks a folder and is
chopped from the stored name. -/
def AssetItem.ofRaw (raw : String) : AssetItem :=
  if raw.endsWith "/" then ⟨.folder, raw.dropRight 1⟩ else ⟨.file, raw⟩

/-- The state of a `FolderIterator`: its entry list (it derives from
`QVector<AssetItem>`), the prefixed folder path `m_path` and the cursor
`m_index`, which starts at `-1`. -/
structure FolderIterator where
  entries : List AssetItem
  path : String
  index : Int
deriving DecidableEq, Repr

/-- Default entry handed to `getD`; never read on the guarded paths. -/
def blankItem : AssetItem := ⟨.file, ""⟩

/-- `FolderIterator::currentFileName`: empty when the cursor is outside
`[0, size())`. -/
def currentFileName (it : FolderIterator) : String :=
  if it.index < 0 ∨ it.index ≥ (it.entries.length : Int) then ""
  else (it.entries.getD it.index.toNat blankItem).name

/-- `FolderIterator::currentFilePath`: empty under the same guard,
otherwise the stored path prefix plus the current name. -/
def currentFilePath (it : FolderIterator) : String :=
  if it.index < 0 ∨ it.index ≥ (it.entries.length : Int) then ""
  else it.path ++ (it.entries.getD it.index.toNat blankItem).name

/-- `FolderIterator::hasNext`. -/
def hasNext (it : FolderIterator) : Bool :=
  !it.entries.isEmpty && it.index + 1 < (it.entries.length : Int)

/-- `FolderIterator::next`: empty exactly when `hasNext` fails,
otherwise the cursor advances by one and the pair
`(currentFileName(), at(m_index))` is returned. -/
def next (it : FolderIterator) : Option (String × AssetItem) × FolderIterator :=
  if hasNext it then
    let it2 : FolderIterator := ⟨it.entries, it.path, it.index + 1⟩
    (some (currentFileName it2, it2.entries.getD it2.index.toNat blankItem), it2)
  else (none, it)

end QtAndroidAssets

namespace QtNetInfo

/-- `QNetworkInformation::Feature`, the four feature flags. -/
inductive Feature where
  | reachability
  | captivePortal
  | transportMedium
  | metered
deriving DecidableEq, Fintype, Repr

/-- A `QNetworkInformation::Features` flag set. -/
structure Features where
  reachability : Bool
  captivePortal : Bool
  transportMedium : Bool
  metered : Bool
deriving DecidableEq, Repr

/-- Flag membership. -/
def Features.has (f : Features) : Feature → Bool
  | .reachability => f.reachability
  | .captivePortal => f.captivePortal
  | .transportMedium => f.transportMedium
  | .metered => f.metered

/-- Bitwise `&` on flag sets. -/
def Features.inter (a b : Features) : Features :=
  ⟨a.reachability && b.reachability, a.captivePortal && b.captivePortal,
   a.transportMedium && b.transportMedium, a.metered && b.metered⟩

/-- `featuresSupportedStatic`: Reachability always, TransportMedium
only when built for UIKit platforms (`QT_PLATFORM_UIKIT`), nothing
else. -/
def featuresSupportedStatic (uikit : Bool) : Features :=
  ⟨true, false, uikit, false⟩

/-- The backend object the factory allocates. -/
inductive Backend where
  | scNetworkReachability
deriving DecidableEq, Repr

/-- `QSCNetworkReachabilityNetworkInformationBackendFactory::create`:
null when `(requiredFeatures & featuresSupported()) != requiredFeatures`,
a new backend otherwise. -/
def factoryCreate (uikit : Bool) (required : Features) : Option Backend :=
  if required.inter (featuresSupportedStatic uikit) ≠ required then none
  else some .scNetworkReachability

end QtNetInfo

namespace QtPolling

lemma timeoutFiles_eq (fs : FS) (l : List (String × FileInfo)) :
    timeoutFiles fs l = (l.filterMap (fileDiffKeep fs), l.filterMap (fileDiffEvent fs)) := by
  induction l with
  | nil => rfl
  | cons e rest ih =>
    obtain ⟨path, stored⟩ := e
    simp only [timeoutFiles, ih, List.filterMap_cons]
    cases h : fs path with
    | none => simp [fileDiffKeep, fileDiffEvent, h]
    | some x =>
      by_cases hne : stored ≠ x.info <;>
        simp [fileDiffKeep, fileDiffEvent, h, hne]

lemma timeoutDirs_eq (fs fs2 : FS) (l : List (String × FileInfo)) :
    timeoutDirs fs fs2 l = (l.filterMap (dirDiffKeep fs fs2), l.filterMap (dirDiffEvent fs fs2)) := by
  induction l with
  | nil => rfl
  | cons e rest ih =>
    obtain ⟨path, stored⟩ := e
    simp only [timeoutDirs, ih, List.filterMap_cons]
    cases h : fs (dirKey path) with
    | none => simp [dirDiffKeep, dirDiffEvent, h]
    | some x =>
      by_cases hne : stored ≠ x.info
      · cases h2 : fs2 (dirKey path) with
        | none => simp [dirDiffKeep, dirDiffEvent, h, h2, hne]
        | some y => simp [dirDiffKeep, dirDiffEvent, h, h2, hne]
      · simp [dirDiffKeep, dirDiffEvent, h, hne]

lemma lookupKey_append (m₁ m₂ : List (String × FileInfo)) (q : String) :
    lookupKey (m₁ ++ m₂) q =
      match lookupKey m₁ q with
      | some v => some v
      | none => lookupKey m₂ q := by
  induction m₁ with
  | nil => simp [lookupKey]
  | cons e rest ih =>
    by_cases h : e.1 = q <;> simp [lookupKey, h, ih]

lemma lookupKey_eraseKey (m : List (String × FileInfo)) (k q : String) :
    lookupKey (eraseKey m k) q = if q = k then none else lookupKey m q := by
  induction m with
  | nil => simp [eraseKey, lookupKey]
  | cons e rest ih =>
    by_cases hek : e.1 = k
    · by_cases hq : q = k
      · subst hq
        simp [eraseKey, lookupKey, hek, ih]
      · have heq : ¬ e.1 = q := fun h => hq (by rw [← h, hek])
        simp [eraseKey, lookupKey, hek, hq, ih, heq, Ne.symm hq]
    · by_cases heq : e.1 = q
      · have hqk : ¬ q = k := fun h => hek (heq.trans h)
        simp [eraseKey, lookupKey, hek, heq, hqk]
      · simp [eraseKey, lookupKey, hek, heq, ih]

lemma lookupKey_hashInsert (m : List (String × FileInfo)) (k : String) (v : FileInfo)
    (q : String) :
    lookupKey (hashInsert m k v) q = if q = k then some v else lookupKey m q := by
  by_cases h : q = k
  · simp [hashInsert, lookupKey_append, lookupKey_eraseKey, lookupKey, h]
  · simp only [hashInsert, lookupKey_append, lookupKey_eraseKey, h, if_neg, if_false]
    cases hm : lookupKey m q <;>
      simp [lookupKey, hm, Ne.symm h]

lemma hashInsert_ne_nil (m : List (String × FileInfo)) (k : String) (v : FileInfo) :
    hashInsert m k v ≠ [] := by
  simp [hashInsert]

lemma unhandledP_dirs_ext (fs : FS) (L : WatchLists) (p q : String) (h : q ≠ p) :
    unhandledP fs ⟨L.files, L.directories ++ [p]⟩ q = unhandledP fs L q := by
  cases hfs : fs q with
  | none => simp [unhandledP, hfs]
  | some e => simp [unhandledP, hfs, h]

lemma unhandledP_files_ext (fs : FS) (L : WatchLists) (p q : String) (h : q ≠ p) :
    unhandledP fs ⟨L.files ++ [p], L.directories⟩ q = unhandledP fs L q := by
  cases hfs : fs q with
  | none => simp [unhandledP, hfs]
  | some e => simp [unhandledP, hfs, h]

lemma addedDirP_files_ext (fs : FS) (L : WatchLists) (p q : String) :
    addedDirP fs ⟨L.files ++ [p], L.directories⟩ q = addedDirP fs L q := by
  cases hfs : fs q <;> simp [addedDirP, hfs]

lemma addedDirP_dirs_ext (fs : FS) (L : WatchLists) (p q : String) (h : q ≠ p) :
    addedDirP fs ⟨L.files, L.directories ++ [p]⟩ q = addedDirP fs L q := by
  cases hfs : fs q with
  | none => simp [addedDirP, hfs]
  | some e => simp [addedDirP, hfs, h]

lemma addedFileP_dirs_ext (fs : FS) (L : WatchLists) (p q : String) :
    addedFileP fs ⟨L.files, L.directories ++ [p]⟩ q = addedFileP fs L q := by
  cases hfs : fs q <;> simp [addedFileP, hfs]

lemma addedFileP_files_ext (fs : FS) (L : WatchLists) (p q : String) (h : q ≠ p) :
    addedFileP fs ⟨L.files ++ [p], L.directories⟩ q = addedFileP fs L q := by
  cases hfs : fs q with
  | none => simp [addedFileP, hfs]
  | some e => simp [addedFileP, hfs, h]

lemma addPathsLoop_spec (fs : FS) (paths : List String) :
    ∀ (L : WatchLists) (E : EngineMaps), paths.Nodup →
      (addPathsLoop fs paths L E).unhandled = paths.filter (unhandledP fs L) ∧
      (addPathsLoop fs paths L E).lists.files = L.files ++ paths.filter (addedFileP fs L) ∧
      (addPathsLoop fs paths L E).lists.directories
        = L.directories ++ paths.filter (addedDirP fs L) ∧
      (∀ q, lookupKey (addPathsLoop fs paths L E).eng.files q =
        if q ∈ paths ∧ addedFileP fs L q then some (statSnap fs q)
        else lookupKey E.files q) ∧
      (∀ q, lookupKey (addPathsLoop fs paths L E).eng.directories q =
        if q ∈ paths ∧ addedDirP fs L q then some (statSnap fs (dirKey q))
        else lookupKey E.directories q) := by
  induction paths with
  | nil => intro L E _; simp [addPathsLoop]
  | cons p rest ih =>
    intro L E hnd
    obtain ⟨hp, hrest⟩ := List.nodup_cons.mp hnd
    cases hfs : fs p with
    | none =>
      obtain ⟨h1, h2, h3, h4, h5⟩ := ih L E hrest
      have hstep : addPathsLoop fs (p :: rest) L E =
          ⟨p :: (addPathsLoop fs rest L E).unhandled,
           (addPathsLoop fs rest L E).lists, (addPathsLoop fs rest L E).eng⟩ := by
        simp [addPathsLoop, hfs]
      have hup : unhandledP fs L p = true := by simp [unhandledP, hfs]
      have haf : addedFileP fs L p = false := by simp [addedFileP, hfs]
      have had : addedDirP fs L p = false := by simp [addedDirP, hfs]
      refine ⟨?_, ?_, ?_, ?_, ?_⟩
      · rw [hstep]; simp [List.filter_cons, hup, h1]
      · rw [hstep]; simp [List.filter_cons, haf, h2]
      · rw [hstep]; simp [List.filter_cons, had, h3]
      · intro q
        rw [hstep]; simp only [h4 q]
        by_cases hq : q = p
        · subst hq; simp [haf, hp]
        · simp [hq]
      · intro q
        rw [hstep]; simp only [h5 q]
        by_cases hq : q = p
        · subst hq; simp [had, hp]
        · simp [hq]
    | some e =>
      by_cases hd : e.isDir = true
      · by_cases hmem : p ∈ L.directories
        · obtain ⟨h1, h2, h3, h4, h5⟩ := ih L E hrest
          have hstep : addPathsLoop fs (p :: rest) L E =
              ⟨p :: (addPathsLoop fs rest L E).unhandled,
               (addPathsLoop fs rest L E).lists, (addPathsLoop fs rest L E).eng⟩ := by
            simp [addPathsLoop, hfs, hd, hmem]
          have hup : unhandledP fs L p = true := by simp [unhandledP, hfs, hd, hmem]
          have haf : addedFileP fs L p = false := by simp [addedFileP, hfs, hd]
          have had : addedDirP fs L p = false := by simp [addedDirP, hfs, hd, hmem]
          refine ⟨?_, ?_, ?_, ?_, ?_⟩
          · rw [hstep]; simp [List.filter_cons, hup, h1]
          · rw [hstep]; simp [List.filter_cons, haf, h2]
          · rw [hstep]; simp [List.filter_cons, had, h3]
          · intro q
            rw [hstep]; simp only [h4 q]
            by_cases hq : q = p
            · subst hq; simp [haf, hp]
            · simp [hq]
          · intro q
            rw [hstep]; simp only [h5 q]
            by_cases hq : q = p
            · subst hq; simp [had, hp]
            · simp [hq]
        · obtain ⟨h1, h2, h3, h4, h5⟩ :=
            ih ⟨L.files, L.directories ++ [p]⟩
              ⟨E.files, hashInsert E.directories p (statSnap fs (dirKey p))⟩ hrest
          have hstep : addPathsLoop fs (p :: rest) L E =
              addPathsLoop fs rest ⟨L.files, L.directories ++ [p]⟩
                ⟨E.files, hashInsert E.directories p (statSnap fs (dirKey p))⟩ := by
            simp [addPathsLoop, hfs, hd, hmem]
          have hup : unhandledP fs L p = false := by simp [unhandledP, hfs, hd, hmem]
          have haf : addedFileP fs L p = false := by simp [addedFileP, hfs, hd]
          have had : addedDirP fs L p = true := by simp [addedDirP, hfs, hd, hmem]
          refine ⟨?_, ?_, ?_, ?_, ?_⟩
          · rw [hstep, h1, List.filter_congr
              (fun q hq => unhandledP_dirs_ext fs L p q (fun h => hp (h ▸ hq)))]
            simp [List.filter_cons, hup]
          · rw [hstep, h2, List.filter_congr
              (fun q _ => addedFileP_dirs_ext fs L p q)]
            simp [List.filter_cons, haf]
          · rw [hstep, h3, List.filter_congr
              (fun q hq => addedDirP_dirs_ext fs L p q (fun h => hp (h ▸ hq)))]
            simp [List.filter_cons, had, List.append_assoc]
          · intro q
            rw [hstep]; simp only [h4 q]
            by_cases hq : q = p
            · subst hq; simp [haf, hp]
            · rw [addedFileP_dirs_ext fs L p q]
              simp [hq]
          · intro q
            rw [hstep]; simp only [h5 q, lookupKey_hashInsert]
            by_cases hq : q = p
            · subst hq; simp [had, hp]
            · rw [addedDirP_dirs_ext fs L p q hq]
              simp [hq]
      · by_cases hmem : p ∈ L.files
        · obtain ⟨h1, h2, h3, h4, h5⟩ := ih L E hrest
          have hstep : addPathsLoop fs (p :: rest) L E =
              ⟨p :: (addPathsLoop fs rest L E).unhandled,
               (addPathsLoop fs rest L E).lists, (addPathsLoop fs rest L E).eng⟩ := by
            simp [addPathsLoop, hfs, hd, hmem]
          have hup : unhandledP fs L p = true := by simp [unhandledP, hfs, hd, hmem]
          have haf : addedFileP fs L p = false := by simp [addedFileP, hfs, hd, hmem]
          have had : addedDirP fs L p = false := by simp [addedDirP, hfs, hd]
          refine ⟨?_, ?_, ?_, ?_, ?_⟩
          · rw [hstep]; simp [List.filter_cons, hup, h1]
          · rw [hstep]; simp [List.filter_cons, haf, h2]
          · rw [hstep]; simp [List.filter_cons, had, h3]
          · intro q
            rw [hstep]; simp only [h4 q]
            by_cases hq : q = p
            · subst hq; simp [haf, hp]
            · simp [hq]
          · intro q
            rw [hstep]; simp only [h5 q]
            by_cases hq : q = p
            · subst hq; simp [had, hp]
            · simp [hq]
        · obtain ⟨h1, h2, h3, h4, h5⟩ :=
            ih ⟨L.files ++ [p], L.directories⟩
              ⟨hashInsert E.files p e.info, E.directories⟩ hrest
          have hstep : addPathsLoop fs (p :: rest) L E =
              addPathsLoop fs rest ⟨L.files ++ [p], L.directories⟩
                ⟨hashInsert E.files p e.info, E.directories⟩ := by
            simp [addPathsLoop, hfs, hd, hmem]
          have hup : unhandledP fs L p = false := by simp [unhandledP, hfs, hd, hmem]
          have haf : addedFileP fs L p = true := by simp [addedFileP, hfs, hd, hmem]
          have had : addedDirP fs L p = false := by simp [addedDirP, hfs, hd]
          have hsnap : statSnap fs p = e.info := by simp [statSnap, hfs]
          refine ⟨?_, ?_, ?_, ?_, ?_⟩
          · rw [hstep, h1, List.filter_congr
              (fun q hq => unhandledP_files_ext fs L p q (fun h => hp (h ▸ hq)))]
            simp [List.filter_cons, hup]
          · rw [hstep, h2, List.filter_congr
              (fun q hq => addedFileP_files_ext fs L p q (fun h => hp (h ▸ hq)))]
            simp [List.filter_cons, haf, List.append_assoc]
          · rw [hstep, h3, List.filter_congr
              (fun q _ => addedDirP_files_ext fs L p q)]
            simp [List.filter_cons, had]
          · intro q
            rw [hstep]; simp only [h4 q, lookupKey_hashInsert]
            by_cases hq : q = p
            · subst hq; simp [haf, hp, hsnap]
            · rw [addedFileP_files_ext fs L p q hq]
              simp [hq]
          · intro q
            rw [hstep]; simp only [h5 q]
            by_cases hq : q = p
            · subst hq; simp [had, hp]
            · rw [addedDirP_files_ext fs L p q]
              simp [hq]

/-- C1: every timeout tick of the polling watcher is a pure per-path
diff against the stored snapshots: for each watched file, a vanished
path is dropped with `fileChanged(path, true)`, a changed one keeps the
fresh snapshot with `fileChanged(path, false)`, an unchanged one stays
silent; and the analogous rule, with the trailing-slash stat key and
the refresh-and-recheck, holds for each watched directory. -/
theorem timeout_is_pure_diff (fs fs2 : FS) (files dirs : List (String × FileInfo)) :
    timeout fs fs2 files dirs =
      (files.filterMap (fileDiffKeep fs),
       dirs.filterMap (dirDiffKeep fs fs2),
       files.filterMap (fileDiffEvent fs),
       dirs.filterMap (dirDiffEvent fs fs2)) := by
  simp [timeout, timeoutFiles_eq, timeoutDirs_eq]

/-- C2 counterexample: with the file `f` present on disk and absent
from the caller's lists, `addPaths ["f", "f"]` appends `f` to the
caller's file list and yet also returns it in the unhandled list: a
path that was added is reported unhandled although at call time it
existed and stood in neither caller list. -/
theorem addPaths_duplicate_counterexample :
    (addPaths sampleFS ["f", "f"] ⟨[], []⟩ ⟨[], []⟩ false).1.unhandled = ["f"] ∧
    (addPaths sampleFS ["f", "f"] ⟨[], []⟩ ⟨[], []⟩ false).1.lists.files = ["f"] ∧
    (sampleFS "f").isSome = true := by
  decide

/-- C2 (amended to duplicate-free inputs): `addPaths` hands back
exactly the input paths it did not add — a path is unhandled iff it
does not exist or is already in the caller's list of its kind — and
each added path goes to exactly one caller list (directories when the
stat says directory, files otherwise) while a snapshot is inserted
into the matching engine map, directories being snapshotted under
their trailing-slash key. -/
theorem addPaths_characterization (fs : FS) (paths : List String) (L : WatchLists)
    (E : EngineMaps) (t : Bool) (hnd : paths.Nodup) :
    (addPaths fs paths L E t).1.unhandled = paths.filter (unhandledP fs L) ∧
    (addPaths fs paths L E t).1.lists.files = L.files ++ paths.filter (addedFileP fs L) ∧
    (addPaths fs paths L E t).1.lists.directories
      = L.directories ++ paths.filter (addedDirP fs L) ∧
    (∀ q, lookupKey (addPaths fs paths L E t).1.eng.files q =
      if q ∈ paths ∧ addedFileP fs L q then some (statSnap fs q)
      else lookupKey E.files q) ∧
    (∀ q, lookupKey (addPaths fs paths L E t).1.eng.directories q =
      if q ∈ paths ∧ addedDirP fs L q then some (statSnap fs (dirKey q))
      else lookupKey E.directories q) := by
  simpa [addPaths] using addPathsLoop_spec fs paths L E hnd

/-- Instantiation of `addPaths_characterization` at a concrete call:
`f` exists, `x` does not, and `g` is already watched by the caller. -/
theorem addPaths_characterization_witness :
    (["f", "d", "g", "x"] : List String).Nodup ∧
    (addPaths sampleFS ["f", "d", "g", "x"] ⟨["g"], []⟩ ⟨[("g", ⟨1, 1, 6, 11, []⟩)], []⟩
        false).1.unhandled
      = ["f", "d", "g", "x"].filter (unhandledP sampleFS ⟨["g"], []⟩) :=
  ⟨by decide,
   (addPaths_characterization sampleFS ["f", "d", "g", "x"] ⟨["g"], []⟩
      ⟨[("g", ⟨1, 1, 6, 11, []⟩)], []⟩ false (by decide)).1⟩

lemma removePathsLoop_spec (paths : List String) :
    ∀ (L : WatchLists) (E : EngineMaps), paths.Nodup →
      (removePathsLoop paths L E).unhandled
        = paths.filter (fun p =>
            !(lookupKey E.directories p).isSome && !(lookupKey E.files p).isSome) ∧
      (removePathsLoop paths L E).lists.files
        = L.files.filter (fun q =>
            !(decide (q ∈ paths) && (lookupKey E.files q).isSome
              && !(lookupKey E.directories q).isSome)) ∧
      (removePathsLoop paths L E).lists.directories
        = L.directories.filter (fun q =>
            !(decide (q ∈ paths) && (lookupKey E.directories q).isSome)) ∧
      (∀ q, lookupKey (removePathsLoop paths L E).eng.files q
        = if q ∈ paths ∧ lookupKey E.directories q = none then none
          else lookupKey E.files q) ∧
      (∀ q, lookupKey (removePathsLoop paths L E).eng.directories q
        = if q ∈ paths then none else lookupKey E.directories q) := by
  induction paths with
  | nil => intro L E _; simp [removePathsLoop]
  | cons p rest ih =>
    intro L E hnd
    obtain ⟨hp, hrest⟩ := List.nodup_cons.mp hnd
    by_cases hdp : (lookupKey E.directories p).isSome
    · obtain ⟨h1, h2, h3, h4, h5⟩ :=
        ih ⟨L.files, L.directories.filter (fun q => q ≠ p)⟩
          ⟨E.files, eraseKey E.directories p⟩ hrest
      have hstep : removePathsLoop (p :: rest) L E =
          removePathsLoop rest ⟨L.files, L.directories.filter (fun q => q ≠ p)⟩
            ⟨E.files, eraseKey E.directories p⟩ := by
        simp [removePathsLoop, hdp]
      have hdn : ¬ lookupKey E.directories p = none := by
        cases h : lookupKey E.directories p <;> simp_all
      refine ⟨?_, ?_, ?_, ?_, ?_⟩
      · rw [hstep, h1]
        symm
        rw [List.filter_cons_of_neg (by simp [hdp])]
        refine List.filter_congr (fun q hq => ?_)
        have hqp : q ≠ p := fun h => hp (h ▸ hq)
        simp [lookupKey_eraseKey, hqp]
      · rw [hstep, h2]
        refine List.filter_congr (fun q _ => ?_)
        by_cases hqp : q = p
        · subst hqp
          simp [lookupKey_eraseKey, hp, hdp]
        · simp [lookupKey_eraseKey, hqp]
      · rw [hstep, h3, List.filter_filter]
        refine List.filter_congr (fun q _ => ?_)
        by_cases hqp : q = p
        · subst hqp; simp [hdp]
        · simp [lookupKey_eraseKey, hqp]
      · intro q
        rw [hstep]; simp only [h4 q, lookupKey_eraseKey]
        by_cases hqp : q = p
        · subst hqp; simp [hp, hdn]
        · simp [hqp]
      · intro q
        rw [hstep]; simp only [h5 q, lookupKey_eraseKey]
        by_cases hqp : q = p
        · subst hqp; simp [hp]
        · simp [hqp]
    · by_cases hfp : (lookupKey E.files p).isSome
      · obtain ⟨h1, h2, h3, h4, h5⟩ :=
          ih ⟨L.files.filter (fun q => q ≠ p), L.directories⟩
            ⟨eraseKey E.files p, E.directories⟩ hrest
        have hstep : removePathsLoop (p :: rest) L E =
            removePathsLoop rest ⟨L.files.filter (fun q => q ≠ p), L.directories⟩
              ⟨eraseKey E.files p, E.directories⟩ := by
          simp [removePathsLoop, hdp, hfp]
        have hdn : lookupKey E.directories p = none := by
          cases h : lookupKey E.directories p <;> simp_all
        have hfnn : ¬ lookupKey E.files p = none := by
          cases h : lookupKey E.files p <;> simp_all
        refine ⟨?_, ?_, ?_, ?_, ?_⟩
        · rw [hstep, h1]
          symm
          rw [List.filter_cons_of_neg (by simp [hfp])]
          refine List.filter_congr (fun q hq => ?_)
          have hqp : q ≠ p := fun h => hp (h ▸ hq)
          simp [lookupKey_eraseKey, hqp]
        · rw [hstep, h2, List.filter_filter]
          refine List.filter_congr (fun q _ => ?_)
          by_cases hqp : q = p
          · subst hqp; simp [hfp, hdn]
          · simp [lookupKey_eraseKey, hqp]
        · rw [hstep, h3]
          refine List.filter_congr (fun q _ => ?_)
          by_cases hqp : q = p
          · subst hqp; simp [hp, hdp]
          · simp [hqp]
        · intro q
          rw [hstep]; simp only [h4 q, lookupKey_eraseKey]
          by_cases hqp : q = p
          · subst hqp; simp [hp, hdn]
          · simp [hqp]
        · intro q
          rw [hstep]; simp only [h5 q]
          by_cases hqp : q = p
          · subst hqp; simp [hp, hdn]
          · simp [hqp]
      · obtain ⟨h1, h2, h3, h4, h5⟩ := ih L E hrest
        have hstep : removePathsLoop (p :: rest) L E =
            ⟨p :: (removePathsLoop rest L E).unhandled,
             (removePathsLoop rest L E).lists, (removePathsLoop rest L E).eng⟩ := by
          simp [removePathsLoop, hdp, hfp]
        have hdn : lookupKey E.directories p = none := by
          cases h : lookupKey E.directories p <;> simp_all
        have hfn : lookupKey E.files p = none := by
          cases h : lookupKey E.files p <;> simp_all
        refine ⟨?_, ?_, ?_, ?_, ?_⟩
        · rw [hstep]; simp [List.filter_cons, hdn, hfn, h1]
        · rw [hstep, h2]
          refine List.filter_congr (fun q _ => ?_)
          by_cases hqp : q = p
          · subst hqp; simp [hfn]
          · simp [hqp]
        · rw [hstep, h3]
          refine List.filter_congr (fun q _ => ?_)
          by_cases hqp : q = p
          · subst hqp; simp [hdn]
          · simp [hqp]
        · intro q
          rw [hstep]; simp only [h4 q]
          by_cases hqp : q = p
          · subst hqp; simp [hp, hdn, hfn]
          · simp [hqp]
        · intro q
          rw [hstep]; simp only [h5 q]
          by_cases hqp : q = p
          · subst hqp; simp [hp, hdn]
          · simp [hqp]

/-- C3 counterexample: with `d` watched as a directory,
`removePaths ["d", "d"]` removes it on the first iteration and then
returns `d` in the unhandled list, although `d` was watched at call
time. -/
theorem removePaths_duplicate_counterexample :
    (removePaths ["d", "d"] ⟨[], ["d"]⟩
        ⟨[], [("d", ⟨1, 1, 7, 12, ["f"]⟩)]⟩ true).1.unhandled = ["d"] ∧
    (lookupKey [("d", ⟨1, 1, 7, 12, ["f"]⟩)] "d").isSome = true := by
  decide

/-- C3 (amended to duplicate-free inputs): `removePaths` returns
exactly the input paths watched neither as directory nor as file; each
watched input path is removed from the engine map that held it — the
directory map tried first, the file map only on a directory miss — and
from the caller's matching list, while every other watched entry
survives untouched. -/
theorem removePaths_characterization (paths : List String) (L : WatchLists)
    (E : EngineMaps) (t : Bool) (hnd : paths.Nodup) :
    (removePaths paths L E t).1.unhandled
      = paths.filter (fun p =>
          !(lookupKey E.directories p).isSome && !(lookupKey E.files p).isSome) ∧
    (removePaths paths L E t).1.lists.files
      = L.files.filter (fun q =>
          !(decide (q ∈ paths) && (lookupKey E.files q).isSome
            && !(lookupKey E.directories q).isSome)) ∧
    (removePaths paths L E t).1.lists.directories
      = L.directories.filter (fun q =>
          !(decide (q ∈ paths) && (lookupKey E.directories q).isSome)) ∧
    (∀ q, lookupKey (removePaths paths L E t).1.eng.files q
      = if q ∈ paths ∧ lookupKey E.directories q = none then none
        else lookupKey E.files q) ∧
    (∀ q, lookupKey (removePaths paths L E t).1.eng.directories q
      = if q ∈ paths then none else lookupKey E.directories q) := by
  simpa [removePaths] using removePathsLoop_spec paths L E hnd

/-- Instantiation of `removePaths_characterization` at a concrete call:
`d` is watched as a directory, `f` as a file and `x` is not watched. -/
theorem removePaths_characterization_witness :
    (["d", "f", "x"] : List String).Nodup ∧
    (removePaths ["d", "f", "x"] ⟨["f"], ["d"]⟩
        ⟨[("f", ⟨1, 1, 6, 10, []⟩)], [("d", ⟨1, 1, 7, 12, ["f"]⟩)]⟩ true).1.unhandled
      = ["d", "f", "x"].filter (fun p =>
          !(lookupKey [("d", ⟨1, 1, 7, 12, ["f"]⟩)] p).isSome
            && !(lookupKey [("f", ⟨1, 1, 6, 10, []⟩)] p).isSome) :=
  ⟨by decide,
   (removePaths_characterization ["d", "f", "x"] ⟨["f"], ["d"]⟩
      ⟨[("f", ⟨1, 1, 6, 10, []⟩)], [("d", ⟨1, 1, 7, 12, ["f"]⟩)]⟩ true (by decide)).1⟩

lemma addPathsLoop_files_nil (fs : FS) (paths : List String) :
    ∀ L E, (addPathsLoop fs paths L E).eng.files = [] → E.files = [] := by
  induction paths with
  | nil => intro L E h; simpa [addPathsLoop] using h
  | cons p rest ih =>
    intro L E h
    cases hfs : fs p with
    | none =>
      simp only [addPathsLoop, hfs] at h
      exact ih _ _ h
    | some e =>
      by_cases hd : e.isDir = true
      · by_cases hmem : p ∈ L.directories
        · simp [addPathsLoop, hfs, hd, hmem] at h
          exact ih _ _ h
        · simp [addPathsLoop, hfs, hd, hmem] at h
          exact ih ⟨L.files, L.directories ++ [p]⟩
            ⟨E.files, hashInsert E.directories p (statSnap fs (dirKey p))⟩ h
      · by_cases hmem : p ∈ L.files
        · simp [addPathsLoop, hfs, hd, hmem] at h
          exact ih _ _ h
        · simp [addPathsLoop, hfs, hd, hmem] at h
          exact absurd
            (ih ⟨L.files ++ [p], L.directories⟩
              ⟨hashInsert E.files p e.info, E.directories⟩ h)
            (hashInsert_ne_nil _ _ _)

lemma addPathsLoop_dirs_nil (fs : FS) (paths : List String) :
    ∀ L E, (addPathsLoop fs paths L E).eng.directories = [] → E.directories = [] := by
  induction paths with
  | nil => intro L E h; simpa [addPathsLoop] using h
  | cons p rest ih =>
    intro L E h
    cases hfs : fs p with
    | none =>
      simp only [addPathsLoop, hfs] at h
      exact ih _ _ h
    | some e =>
      by_cases hd : e.isDir = true
      · by_cases hmem : p ∈ L.directories
        · simp [addPathsLoop, hfs, hd, hmem] at h
          exact ih _ _ h
        · simp [addPathsLoop, hfs, hd, hmem] at h
          exact absurd
            (ih ⟨L.files, L.directories ++ [p]⟩
              ⟨E.files, hashInsert E.directories p (statSnap fs (dirKey p))⟩ h)
            (hashInsert_ne_nil _ _ _)
      · by_cases hmem : p ∈ L.files
        · simp [addPathsLoop, hfs, hd, hmem] at h
          exact ih _ _ h
        · simp [addPathsLoop, hfs, hd, hmem] at h
          exact ih ⟨L.files ++ [p], L.directories⟩
            ⟨hashInsert E.files p e.info, E.directories⟩ h

lemma removePathsLoop_nil (paths : List String) :
    ∀ L (E : EngineMaps), E.files = [] → E.directories = [] →
      (removePathsLoop paths L E).eng.files = [] ∧
        (removePathsLoop paths L E).eng.directories = [] := by
  induction paths with
  | nil => intro L E hf hd; simp [removePathsLoop, hf, hd]
  | cons p rest ih =>
    intro L E hf hd
    have h1 : lookupKey E.directories p = none := by simp [hd, lookupKey]
    have h2 : lookupKey E.files p = none := by simp [hf, lookupKey]
    simp only [removePathsLoop, h1, h2, Option.isSome_none, Bool.false_eq_true,
      if_false]
    exact ih L E hf hd

lemma applyOp_inv (s : EngineMaps × Bool) (op : WatchOp)
    (h : s.2 = true ↔ (s.1.files ≠ [] ∨ s.1.directories ≠ [])) :
    (applyOp s op).2 = true ↔
      ((applyOp s op).1.files ≠ [] ∨ (applyOp s op).1.directories ≠ []) := by
  cases op with
  | add fs paths L =>
    simp only [applyOp, addPaths]
    by_cases hne : (addPathsLoop fs paths L s.1).eng.files ≠ [] ∨
        (addPathsLoop fs paths L s.1).eng.directories ≠ []
    · by_cases ht : s.2 = true
      · simp [hne, ht]
      · simp [hne, ht]
    · push_neg at hne
      have hf := addPathsLoop_files_nil fs paths L s.1 hne.1
      have hd := addPathsLoop_dirs_nil fs paths L s.1 hne.2
      have hs2 : ¬ s.2 = true := by
        rw [h]
        simp [hf, hd]
      simp [hne.1, hne.2, hs2]
  | remove paths L =>
    simp only [applyOp, removePaths]
    by_cases hre : (removePathsLoop paths L s.1).eng.files = [] ∧
        (removePathsLoop paths L s.1).eng.directories = []
    · simp [hre.1, hre.2]
    · have hs2 : s.2 = true := by
        by_contra hs
        have hempty : ¬ (s.1.files ≠ [] ∨ s.1.directories ≠ []) := fun hh => hs (h.mpr hh)
        push_neg at hempty
        exact hre (removePathsLoop_nil paths L s.1 hempty.1 hempty.2)
      rw [if_neg hre]
      simp only [hs2, true_iff]
      exact not_and_or.mp hre

lemma foldl_applyOp_inv (ops : List WatchOp) :
    ∀ s : EngineMaps × Bool, (s.2 = true ↔ (s.1.files ≠ [] ∨ s.1.directories ≠ [])) →
      ((ops.foldl applyOp s).2 = true ↔
        ((ops.foldl applyOp s).1.files ≠ [] ∨ (ops.foldl applyOp s).1.directories ≠ [])) := by
  induction ops with
  | nil => intro s h; simpa using h
  | cons op rest ih =>
    intro s h
    simpa [List.foldl_cons] using ih (applyOp s op) (applyOp_inv s op h)

/-- C4: along any sequence of `addPaths` / `removePaths` calls starting
from the freshly constructed engine, the polling timer is active after
each call exactly when at least one file or directory is watched, i.e.
when the union of the engine's two snapshot maps is non-empty. -/
theorem timer_active_iff_watching (ops : List WatchOp) :
    (runOps ops).2 = true ↔
      ((runOps ops).1.files ≠ [] ∨ (runOps ops).1.directories ≠ []) :=
  foldl_applyOp_inv ops (⟨[], []⟩, false) (by simp)

end QtPolling

namespace QtAndroidAssets

lemma hasDouble_cons (c : Char) (t : List Char) (h : hasDoubleSlash (c :: t) = false) :
    hasDoubleSlash t = false := by
  cases t with
  | nil => rfl
  | cons d r =>
    simp only [hasDoubleSlash, Bool.or_eq_false_iff] at h
    exact h.2

lemma hasTriple_cons (c : Char) (t : List Char) (h : hasTripleSlash (c :: t) = false) :
    hasTripleSlash t = false := by
  match t with
  | [] => rfl
  | [d] => rfl
  | d :: e :: r =>
    simp only [hasTripleSlash, Bool.or_eq_false_iff] at h
    exact h.2

lemma noDouble_noTriple (l : List Char) (h : hasDoubleSlash l = false) :
    hasTripleSlash l = false := by
  induction l with
  | nil => rfl
  | cons c t ih =>
    match t, h with
    | [], _ => rfl
    | [d], _ => rfl
    | d :: e :: r, h =>
      have h' := h
      simp only [hasDoubleSlash, Bool.or_eq_false_iff, Bool.and_eq_false_iff] at h'
      simp only [hasTripleSlash, Bool.or_eq_false_iff, Bool.and_eq_false_iff]
      refine ⟨?_, ih (hasDouble_cons _ _ h)⟩
      rcases h'.1 with h1 | h1
      · exact Or.inl (Or.inl h1)
      · exact Or.inl (Or.inr h1)

lemma replaceDS_startsSlash (l : List Char) :
    startsSlash (replaceDS l) = startsSlash l := by
  match l with
  | [] => rfl
  | [c] => rfl
  | c :: d :: rest =>
    by_cases h : c = '/' ∧ d = '/'
    · simp [replaceDS, startsSlash, h, h.1]
    · simp [replaceDS, startsSlash, h]

lemma hasDouble_cons_intro (c : Char) (t : List Char)
    (h1 : c = '/' → startsSlash t = false) (h2 : hasDoubleSlash t = false) :
    hasDoubleSlash (c :: t) = false := by
  match t with
  | [] => rfl
  | x :: xs =>
    simp only [hasDoubleSlash, Bool.or_eq_false_iff, Bool.and_eq_false_iff]
    refine ⟨?_, h2⟩
    by_cases hc : c = '/'
    · have := h1 hc
      simp only [startsSlash] at this
      exact Or.inr (by simpa using this)
    · exact Or.inl (by simpa using hc)

lemma triple_head (rest : List Char)
    (h : hasTripleSlash ('/' :: '/' :: rest) = false) : startsSlash rest = false := by
  match rest with
  | [] => rfl
  | e :: r =>
    simp only [hasTripleSlash, Bool.or_eq_false_iff, Bool.and_eq_false_iff] at h
    rcases h.1 with h1 | h1
    · rcases h1 with h1 | h1 <;> simp at h1
    · simpa [startsSlash] using h1

lemma replaceDS_noDouble (l : List Char) (h3 : hasTripleSlash l = false) :
    hasDoubleSlash (replaceDS l) = false := by
  induction l using replaceDS.induct with
  | case1 => rfl
  | case2 c => rfl
  | case3 c d rest hcd ih =>
    obtain ⟨rfl, rfl⟩ := hcd
    rw [replaceDS]
    rw [if_pos ⟨rfl, rfl⟩]
    have hs : startsSlash rest = false := triple_head rest h3
    have ht : hasTripleSlash rest = false :=
      hasTriple_cons _ _ (hasTriple_cons _ _ h3)
    refine hasDouble_cons_intro _ _ (fun _ => ?_) (ih ht)
    rw [replaceDS_startsSlash]
    exact hs
  | case4 c d rest hcd ih =>
    rw [replaceDS, if_neg hcd]
    have ht : hasTripleSlash (d :: rest) = false := hasTriple_cons _ _ h3
    refine hasDouble_cons_intro _ _ (fun hc => ?_) (ih ht)
    rw [replaceDS_startsSlash]
    simp only [startsSlash]
    by_cases hd : d = '/'
    · exact absurd ⟨hc, hd⟩ hcd
    · simpa using hd

lemma replaceDS_id (l : List Char) (h : hasDoubleSlash l = false) :
    replaceDS l = l := by
  induction l using replaceDS.induct with
  | case1 => rfl
  | case2 c => rfl
  | case3 c d rest hcd ih =>
    obtain ⟨rfl, rfl⟩ := hcd
    simp [hasDoubleSlash] at h
  | case4 c d rest hcd ih =>
    rw [replaceDS, if_neg hcd, ih (hasDouble_cons _ _ h)]

lemma startsSlash_dropLead (l : List Char) (h : hasDoubleSlash l = false) :
    startsSlash (dropLeadSlash l) = false := by
  match l with
  | [] => rfl
  | c :: t =>
    by_cases hc : startsSlash (c :: t) = true
    · rw [dropLeadSlash, if_pos hc]
      simp only [startsSlash] at hc
      match t with
      | [] => rfl
      | x :: xs =>
        simp only [hasDoubleSlash, Bool.or_eq_false_iff, Bool.and_eq_false_iff] at h
        rcases h.1 with h1 | h1
        · exact absurd hc (by simpa using h1)
        · simpa [startsSlash] using h1
    · rw [dropLeadSlash, if_neg hc]
      simpa using hc

lemma hasDouble_dropLead (l : List Char) (h : hasDoubleSlash l = false) :
    hasDoubleSlash (dropLeadSlash l) = false := by
  match l with
  | [] => rfl
  | c :: t =>
    by_cases hc : startsSlash (c :: t) = true
    · rw [dropLeadSlash, if_pos hc]
      exact hasDouble_cons _ _ h
    · rw [dropLeadSlash, if_neg hc]
      exact h

lemma startsSlash_dropLast (l : List Char) (h : startsSlash l = false) :
    startsSlash l.dropLast = false := by
  match l with
  | [] => rfl
  | [c] => rfl
  | c :: d :: r =>
    rw [show (c :: d :: r).dropLast = c :: (d :: r).dropLast from rfl]
    simpa [startsSlash] using h

lemma hasDouble_dropLast (l : List Char) (h : hasDoubleSlash l = false) :
    hasDoubleSlash l.dropLast = false := by
  induction l with
  | nil => rfl
  | cons c t ih =>
    match t, h with
    | [], _ => rfl
    | d :: r, h =>
      rw [show (c :: d :: r).dropLast = c :: (d :: r).dropLast from rfl]
      simp only [hasDoubleSlash, Bool.or_eq_false_iff, Bool.and_eq_false_iff] at h
      refine hasDouble_cons_intro _ _ (fun hc => ?_) (ih h.2)
      match r with
      | [] => rfl
      | x :: xs =>
        rw [show (d :: x :: xs).dropLast = d :: (x :: xs).dropLast from rfl]
        simp only [startsSlash]
        rcases h.1 with h1 | h1
        · exact absurd hc (by simpa using h1)
        · simpa using h1

lemma endsSlash_dropLast (l : List Char) (hd : hasDoubleSlash l = false)
    (he : endsSlash l = true) : endsSlash l.dropLast = false := by
  induction l with
  | nil => simp [endsSlash] at he
  | cons c t ih =>
    match t, hd, he with
    | [], _, _ => rfl
    | d :: r, hd, he =>
      rw [show (c :: d :: r).dropLast = c :: (d :: r).dropLast from rfl]
      have hd2 : hasDoubleSlash (d :: r) = false := hasDouble_cons _ _ hd
      have he2 : endsSlash (d :: r) = true := by
        simpa [endsSlash] using he
      have ih2 := ih hd2 he2
      match r, hd, he2, ih2 with
      | [], hd, he2, _ =>
        have hds : d = '/' := by simpa [endsSlash] using he2
        simp only [hasDoubleSlash, Bool.or_eq_false_iff, Bool.and_eq_false_iff] at hd
        rcases hd.1 with h1 | h1
        · simp only [List.dropLast, endsSlash]
          simpa using h1
        · exact absurd hds (by simpa using h1)
      | x :: xs, _, _, ih2 =>
        rw [show (d :: x :: xs).dropLast = d :: (x :: xs).dropLast from rfl] at ih2 ⊢
        match hxs : (x :: xs).dropLast with
        | [] => simpa [endsSlash, hxs] using ih2
        | y :: ys =>
          rw [hxs] at ih2
          simpa [endsSlash, hxs] using ih2

lemma startsSlash_chop (l : List Char) (h : startsSlash l = false) :
    startsSlash (chopTrailSlash l) = false := by
  rw [chopTrailSlash]
  by_cases he : endsSlash l = true
  · rw [if_pos he]; exact startsSlash_dropLast _ h
  · rw [if_neg he]; exact h

lemma hasDouble_chop (l : List Char) (h : hasDoubleSlash l = false) :
    hasDoubleSlash (chopTrailSlash l) = false := by
  rw [chopTrailSlash]
  by_cases he : endsSlash l = true
  · rw [if_pos he]; exact hasDouble_dropLast _ h
  · rw [if_neg he]; exact h

lemma endsSlash_chop (l : List Char) (h : hasDoubleSlash l = false) :
    endsSlash (chopTrailSlash l) = false := by
  rw [chopTrailSlash]
  by_cases he : endsSlash l = true
  · rw [if_pos he]; exact endsSlash_dropLast _ h he
  · rw [if_neg he]; simpa using he

lemma cleanPost_spec (l : List Char) (h3 : hasTripleSlash l = false) :
    startsSlash (cleanPost l) = false ∧ endsSlash (cleanPost l) = false ∧
      hasDoubleSlash (cleanPost l) = false := by
  have hd : hasDoubleSlash (replaceDS l) = false := replaceDS_noDouble l h3
  have h1 : hasDoubleSlash (dropLeadSlash (replaceDS l)) = false := hasDouble_dropLead _ hd
  have hs : startsSlash (dropLeadSlash (replaceDS l)) = false := startsSlash_dropLead _ hd
  exact ⟨startsSlash_chop _ hs, endsSlash_chop _ h1, hasDouble_chop _ h1⟩

lemma stripAssets_some (l rest : List Char) (h : stripAssets l = some rest) :
    l = 'a' :: 's' :: 's' :: 'e' :: 't' :: 's' :: ':' :: rest := by
  rw [stripAssets] at h
  by_cases hc : l.take 7 = ['a', 's', 's', 'e', 't', 's', ':']
  · rw [if_pos hc] at h
    have hrest : l.drop 7 = rest := by simpa using h
    calc l = l.take 7 ++ l.drop 7 := (List.take_append_drop 7 l).symm
    _ = 'a' :: 's' :: 's' :: 'e' :: 't' :: 's' :: ':' :: rest := by rw [hc, hrest]; rfl
  · rw [if_neg hc] at h
    exact absurd h (by simp)

lemma stripAssets_noTriple (l rest : List Char) (h : stripAssets l = some rest)
    (h3 : hasTripleSlash l = false) : hasTripleSlash rest = false := by
  have := stripAssets_some l rest h
  subst this
  exact hasTriple_cons _ _ (hasTriple_cons _ _ (hasTriple_cons _ _ (hasTriple_cons _ _
    (hasTriple_cons _ _ (hasTriple_cons _ _ (hasTriple_cons _ _ h3))))))

lemma stripAssets_noDouble (l rest : List Char) (h : stripAssets l = some rest)
    (hd : hasDoubleSlash l = false) : hasDoubleSlash rest = false := by
  have := stripAssets_some l rest h
  subst this
  exact hasDouble_cons _ _ (hasDouble_cons _ _ (hasDouble_cons _ _ (hasDouble_cons _ _
    (hasDouble_cons _ _ (hasDouble_cons _ _ (hasDouble_cons _ _ hd))))))

lemma cleanedAssetPath_of_noDouble (p : List Char) (h : hasDoubleSlash p = false) :
    startsSlash (cleanedAssetPath p) = false ∧ endsSlash (cleanedAssetPath p) = false := by
  rw [cleanedAssetPath]
  cases hst : stripAssets p with
  | none =>
    have := cleanPost_spec p (noDouble_noTriple p h)
    exact ⟨this.1, this.2.1⟩
  | some r2 =>
    have hr2 : hasDoubleSlash r2 = false := stripAssets_noDouble p r2 hst h
    have := cleanPost_spec r2 (noDouble_noTriple r2 hr2)
    exact ⟨this.1, this.2.1⟩

/-- C8 counterexample: on the input `a///`, whose double-slash
replacement pass leaves a double slash behind, `cleanedAssetPath`
returns `a/`, which still ends with a slash. -/
theorem cleanedAssetPath_counterexample :
    cleanedAssetPath ['a', '/', '/', '/'] = ['a', '/'] ∧
    endsSlash (cleanedAssetPath ['a', '/', '/', '/']) = true := by
  decide

/-- C8 (amended): for every input without three consecutive slashes,
`cleanedAssetPath` returns a string that neither begins nor ends with
a slash, with a leading `assets:` prefix stripped before the slash
normalisation; and because `create` applies the same normalisation and
the engine constructor cleans once more, the internal file name of
every engine created from such an input has no leading or trailing
slash either. -/
theorem cleanedAssetPath_clean (file : List Char) (h3 : hasTripleSlash file = false) :
    startsSlash (cleanedAssetPath file) = false ∧
    endsSlash (cleanedAssetPath file) = false ∧
    (∀ rest, stripAssets file = some rest → cleanedAssetPath file = cleanPost rest) ∧
    (∀ nm, engineFileName file = some nm →
      startsSlash nm = false ∧ endsSlash nm = false) := by
  refine ⟨?_, ?_, ?_, ?_⟩
  · rw [cleanedAssetPath]
    cases hst : stripAssets file with
    | none => exact (cleanPost_spec file h3).1
    | some rest => exact (cleanPost_spec rest (stripAssets_noTriple file rest hst h3)).1
  · rw [cleanedAssetPath]
    cases hst : stripAssets file with
    | none => exact (cleanPost_spec file h3).2.1
    | some rest => exact (cleanPost_spec rest (stripAssets_noTriple file rest hst h3)).2.1
  · intro rest hst
    rw [cleanedAssetPath, hst]
  · intro nm h
    rw [engineFileName, handlerCreate] at h
    by_cases hnil : file = []
    · rw [if_pos hnil] at h
      exact absurd h (by simp)
    · rw [if_neg hnil] at h
      cases hst : stripAssets file with
      | none =>
        rw [hst] at h
        exact absurd h (by simp)
      | some path =>
        rw [hst] at h
        have hnm : nm = cleanedAssetPath (cleanPost path) := by
          simpa using h.symm
        subst hnm
        exact cleanedAssetPath_of_noDouble _
          (cleanPost_spec path (stripAssets_noTriple file path hst h3)).2.2

/-- Instantiation of `cleanedAssetPath_clean` at `assets://x/y/`. -/
theorem cleanedAssetPath_clean_witness :
    hasTripleSlash ['a', 's', 's', 'e', 't', 's', ':', '/', '/', 'x', '/', 'y', '/'] = false ∧
    startsSlash (cleanedAssetPath
      ['a', 's', 's', 'e', 't', 's', ':', '/', '/', 'x', '/', 'y', '/']) = false :=
  ⟨by decide, (cleanedAssetPath_clean _ (by decide)).1⟩

end QtAndroidAssets


namespace QtAndroidAssets

/-- C5: `FolderIterator::fromCache` returns the cached shared iterator
on a hit; on a miss it constructs a fresh one, attempts the insertion
into the capacity-`max(50, QT_ANDROID_MAX_ASSETS_CACHE_SIZE)` cache and
returns the fresh iterator either way; and with that capacity two
consecutive calls for the same path yield the same shared iterator. -/
theorem fromCache_spec (c : AssetCache) (fresh fresh2 : Nat) (path : String) (env : Int)
    (hcap : c.maxCost = assetsCacheCapacity env) :
    (∀ v, pairLookup c.entries path = some v → (fromCache c fresh path).1 = v) ∧
    (pairLookup c.entries path = none → (fromCache c fresh path).1 = fresh) ∧
    (fromCache (fromCache c fresh path).2 fresh2 path).1 = (fromCache c fresh path).1 := by
  have hpos : 1 ≤ c.maxCost := by
    rw [hcap, assetsCacheCapacity]
    have h50 : (50 : Int) ≤ max 50 env := le_max_left _ _
    omega
  have hlt : ¬ c.maxCost < 1 := by omega
  refine ⟨?_, ?_, ?_⟩
  · intro v hv
    simp [fromCache, cacheObject, hv]
  · intro hv
    simp [fromCache, cacheObject, cacheInsert, hv, hlt]
  · cases hv : pairLookup c.entries path with
    | some v =>
      simp [fromCache, cacheObject, hv, pairLookup]
    | none =>
      simp [fromCache, cacheObject, cacheInsert, hv, hlt, pairLookup]

/-- Instantiation of `fromCache_spec`: two consecutive calls on the
empty cache of the static capacity (unset environment variable) hand
back the first call's freshly constructed iterator. -/
theorem fromCache_spec_witness :
    (⟨assetsCacheCapacity 0, []⟩ : AssetCache).maxCost = assetsCacheCapacity 0 ∧
    (fromCache (fromCache ⟨assetsCacheCapacity 0, []⟩ 7 "p").2 9 "p").1
      = (fromCache ⟨assetsCacheCapacity 0, []⟩ 7 "p").1 :=
  ⟨rfl, (fromCache_spec ⟨assetsCacheCapacity 0, []⟩ 7 9 "p" 0 rfl).2.2⟩

/-- C9: the iterator accessors are total at the boundary — the two
`current*` accessors return the empty string whenever the cursor lies
outside `[0, size())`, `next()` is empty exactly when `hasNext()`
fails, and otherwise it advances the cursor by exactly one and returns
the entry at the new cursor. -/
theorem folderIterator_total (it : FolderIterator) (hidx : -1 ≤ it.index) :
    ((it.index < 0 ∨ (it.entries.length : Int) ≤ it.index) →
      currentFileName it = "" ∧ currentFilePath it = "") ∧
    ((next it).1 = none ↔ hasNext it = false) ∧
    (hasNext it = true →
      (next it).2.index = it.index + 1 ∧
      (next it).1 = some ((it.entries.getD (it.index + 1).toNat blankItem).name,
        it.entries.getD (it.index + 1).toNat blankItem)) := by
  refine ⟨?_, ?_, ?_⟩
  · intro h
    have hcond : it.index < 0 ∨ it.index ≥ (it.entries.length : Int) := h
    constructor
    · rw [currentFileName, if_pos hcond]
    · rw [currentFilePath, if_pos hcond]
  · by_cases hn : hasNext it = true
    · rw [next, if_pos hn]
      simp [hn]
    · rw [next, if_neg hn]
      simp only [Bool.not_eq_true] at hn
      simp [hn]
  · intro hn
    rw [next, if_pos hn]
    refine ⟨rfl, ?_⟩
    have hlen : it.index + 1 < (it.entries.length : Int) := by
      rw [hasNext] at hn
      simp only [Bool.and_eq_true, decide_eq_true_eq] at hn
      exact hn.2
    have hguard : ¬ (it.index + 1 < 0 ∨ (it.entries.length : Int) ≤ it.index + 1) := by
      omega
    simp only [currentFileName]
    rw [if_neg hguard]

/-- Instantiation of `folderIterator_total` on a two-entry iterator
with the cursor at its initial value `-1`. -/
theorem folderIterator_total_witness :
    (-1 : Int) ≤ ((⟨[⟨.file, "x"⟩, ⟨.folder, "y"⟩], "assets:/p/", -1⟩ :
        FolderIterator)).index ∧
    ((next ⟨[⟨.file, "x"⟩, ⟨.folder, "y"⟩], "assets:/p/", -1⟩).1 = none ↔
      hasNext (⟨[⟨.file, "x"⟩, ⟨.folder, "y"⟩], "assets:/p/", -1⟩ : FolderIterator)
        = false) :=
  ⟨by decide, (folderIterator_total ⟨[⟨.file, "x"⟩, ⟨.folder, "y"⟩], "assets:/p/", -1⟩
      (by decide)).2.1⟩

end QtAndroidAssets

namespace QtNetInfo

/-- C7: the SCNetworkReachability backend factory returns null exactly
when the required feature set contains a feature outside the supported
set (Reachability, plus TransportMedium only on UIKit builds), and
constructs a backend for every required set inside the supported
set. -/
theorem factoryCreate_spec (uikit : Bool) (required : Features) :
    (factoryCreate uikit required = none ↔
      ∃ f : Feature, required.has f = true ∧
        (featuresSupportedStatic uikit).has f = false) ∧
    ((∀ f : Feature, required.has f = true →
        (featuresSupportedStatic uikit).has f = true) →
      factoryCreate uikit required = some .scNetworkReachability) := by
  obtain ⟨r, c, t, m⟩ := required
  cases uikit <;> cases r <;> cases c <;> cases t <;> cases m <;>
    exact ⟨by decide, fun h => by revert h; decide⟩

/-- Instantiation of `factoryCreate_spec`: requiring only Reachability
on a non-UIKit build produces a backend. -/
theorem factoryCreate_spec_witness :
    (∀ f : Feature, (Features.mk true false false false).has f = true →
      (featuresSupportedStatic false).has f = true) ∧
    factoryCreate false (Features.mk true false false false)
      = some .scNetworkReachability :=
  ⟨by decide, (factoryCreate_spec false (Features.mk true false false false)).2 (by decide)⟩

end QtNetInfo
